import Mathlib

/-!
# Verification of the fget/fput RDMA transfer engine

A shallow embedding, in Lean 4, of the data-plane functions of
`src/transfer/fget.c`, together with theorems checking the natural-language
specification's claims against the embedded code.

Conventions of the embedding:
* machine integers (`size_t`, `uint64_t`) become `Nat`; `SSIZE_MAX` is the
  explicit constant `2^63 - 1`;
* C arrays walked by index become Lean lists walked structurally;
* FIFOs (`fifo_t`) become lists with the head at the front, together with a
  remaining-capacity counter where `fifo_full` matters;
* buffer pools (`buflist_t`) become counters (when only availability matters)
  or lists;
* calls into the fabric (`fi_sendmsg`, `fi_writemsg`, `fi_cancel`, ...) are
  external: their results are supplied as oracle parameters, and a fatal
  `bailout_for_ofi_ret`/`errx` (which exits the process) is modelled by an
  `Option`-`none` result or a dedicated outcome constructor.
-/

namespace Fget

/-- `SSIZE_MAX` on the reference LP64 platform. -/
def SSIZE_MAX : Nat := 2 ^ 63 - 1

/-! ## C1: vector-message wellformedness

`vector_msg_t` is `uint32_t niovs` followed by twelve
`(uint64_t addr, uint64_t len, uint64_t key)` records.  With natural struct
layout, `offsetof(vector_msg_t, iov)` is 8 (the `uint32_t` is padded to the
8-byte alignment of the records) and `sizeof(iov[0])` is 24. -/

/-- `offsetof(vector_msg_t, iov)`: the vector-message header size. -/
def vector_msg_header_len : Nat := 8

/-- `sizeof(vector_msg_t.iov[0])`: one advertisement record. -/
def vector_msg_iov_size : Nat := 24

/-- Embedding of `vecbuf_is_wellformed` (fget.c:1668-1696).  `nused` is the
received wire length recorded in the buffer header, `niovs` the count field
of the message.  The C function rejects, in order: a length shorter than the
header; an excess over the header that is not a whole number of records; a
count larger than the records the length covers; a count above 12.  All other
messages are wellformed. -/
def vecbuf_is_wellformed (nused niovs : Nat) : Bool :=
  if nused < vector_msg_header_len then false
  else if (nused - vector_msg_header_len) % vector_msg_iov_size ≠ 0 then false
  else if (nused - vector_msg_header_len) / vector_msg_iov_size < niovs then false
  else if 12 < niovs then false
  else true

/-- Outcomes of `xmtr_vector_rx_process` (fget.c:1742-1765), the transmitter's
handler for a completed vector-message receive. -/
inductive VecRxResult where
  /-- `rxctl_complete` found no posted receive; the handler returns -1. -/
  | fatalNoPosted
  /-- The buffer's transfer context was marked cancelled; the buffer is freed
  and the handler returns 0. -/
  | freedCancelled
  /-- `vecbuf_is_wellformed` failed; the buffer is posted again as a receive
  and the handler returns 0 — the connection keeps running. -/
  | repostedMalformed
  /-- `fifo_put(x->vec.rcvd, ...)` failed; `errx` terminates the process. -/
  | processExitRcvdFull
  /-- The message was appended to `vec.rcvd`; the handler returns 1. -/
  | enqueued
  deriving DecidableEq, Repr

/-- Embedding of `xmtr_vector_rx_process` (fget.c:1742-1765).  `postedEmpty`
is whether the posted-receives FIFO is empty (making `rxctl_complete` return
`NULL`), `cancelled` the buffer's `xfc.cancelled` flag, `nused`/`niovs` the
received message, `rcvdFull` whether `vec.rcvd` is full. -/
def xmtr_vector_rx_process (postedEmpty cancelled : Bool) (nused niovs : Nat)
    (rcvdFull : Bool) : VecRxResult :=
  if postedEmpty then .fatalNoPosted
  else if cancelled then .freedCancelled
  else if ¬ vecbuf_is_wellformed nused niovs then .repostedMalformed
  else if rcvdFull then .processExitRcvdFull
  else .enqueued

/-- The handler's `int` return value on the non-exiting outcomes. -/
def vecRxReturn : VecRxResult → Int
  | .fatalNoPosted => -1
  | .freedCancelled => 0
  | .repostedMalformed => 0
  | .processExitRcvdFull => 0
  | .enqueued => 1

/-! ## C2: `write_fully` (fget.c:1572-1666) -/

/-- A local I/O vector segment (`struct iovec`): a base address and a byte
length. -/
structure Iovec where
  iov_base : Nat
  iov_len : Nat
  deriving DecidableEq, Repr

/-- A remote advertisement segment (`struct fi_rma_iov`): remote address,
byte length, memory-region key. -/
structure RmaIov where
  addr : Nat
  len : Nat
  key : Nat
  deriving DecidableEq, Repr

/-- Sum of the lengths of local segments. -/
def sum_iov_len (l : List Iovec) : Nat := (l.map Iovec.iov_len).sum

/-- Sum of the lengths of remote segments. -/
def sum_riov_len (l : List RmaIov) : Nat := (l.map RmaIov.len).sum

/-- The byte count `write_fully` writes (fget.c:1580-1591):
`min(min(sumlen.local, sumlen.remote), min(p.len, SSIZE_MAX))`, where the
sums run over the first `min(maxsegs, niovs)` local and `min(maxsegs, nriovs)`
remote segments (`List.take maxsegs` takes exactly that many). -/
def write_fully_nwritten (iov : List Iovec) (riov : List RmaIov)
    (reqlen maxsegs : Nat) : Nat :=
  min (min (sum_iov_len (iov.take maxsegs)) (sum_riov_len (riov.take maxsegs)))
    (min reqlen SSIZE_MAX)

/-- Embedding of the third loop of `write_fully` (fget.c:1634-1648): rewrite
the local vector to the residue after `nrem` bytes.  A segment wholly covered
by the remaining count is skipped; at the boundary the segment is copied with
its base advanced and length reduced when `nrem > 0`; afterwards (`nrem = 0`)
positive-length segments are copied verbatim (and zero-length ones are still
skipped by the `nremaining >= iov_len` test). -/
def write_fully_iov_residue : List Iovec → Nat → List Iovec
  | [], _ => []
  | h :: t, nrem =>
    if h.iov_len ≤ nrem then write_fully_iov_residue t (nrem - h.iov_len)
    else if 0 < nrem then
      { iov_base := h.iov_base + nrem, iov_len := h.iov_len - nrem } ::
        write_fully_iov_residue t 0
    else h :: write_fully_iov_residue t 0

/-- Embedding of the fourth loop of `write_fully` (fget.c:1650-1663): the
remote-vector residue, advancing `addr` and reducing `len` at the boundary. -/
def write_fully_riov_residue : List RmaIov → Nat → List RmaIov
  | [], _ => []
  | h :: t, nrem =>
    if h.len ≤ nrem then write_fully_riov_residue t (nrem - h.len)
    else if 0 < nrem then
      { addr := h.addr + nrem, len := h.len - nrem, key := h.key } ::
        write_fully_riov_residue t 0
    else h :: write_fully_riov_residue t 0

/-- The outputs of `write_fully` on the success path of `fi_writemsg`: the
returned byte count and the residual local/remote vectors with their counts
(`*p.niovs_out`, `*p.nriovs_out`). -/
structure WriteFullyResult where
  nwritten : Nat
  iov_out : List Iovec
  niovs_out : Nat
  riov_out : List RmaIov
  nriovs_out : Nat
  deriving DecidableEq, Repr

/-- Embedding of `write_fully` (fget.c:1572-1666), success path.  (On an
`fi_writemsg` failure the function returns the error code and leaves no
residue; the claims concern the successful write.) -/
def write_fully (iov : List Iovec) (riov : List RmaIov)
    (reqlen maxsegs : Nat) : WriteFullyResult :=
  let len := write_fully_nwritten iov riov reqlen maxsegs
  let iovOut := write_fully_iov_residue iov len
  let riovOut := write_fully_riov_residue riov len
  { nwritten := len
  , iov_out := iovOut
  , niovs_out := iovOut.length
  , riov_out := riovOut
  , nriovs_out := riovOut.length }

/-- Specification-level residue of the local vector, from the claim's words:
the suffix of bytes not covered by `w` written bytes, with the partially
consumed segment's base advanced and length reduced. -/
def spec_residue_iov : List Iovec → Nat → List Iovec
  | [], _ => []
  | h :: t, w =>
    if h.iov_len ≤ w then spec_residue_iov t (w - h.iov_len)
    else { iov_base := h.iov_base + w, iov_len := h.iov_len - w } :: t

/-- Specification-level residue of the remote vector: the suffix of
advertisements not covered by `w` written bytes. -/
def spec_residue_riov : List RmaIov → Nat → List RmaIov
  | [], _ => []
  | h :: t, w =>
    if h.len ≤ w then spec_residue_riov t (w - h.len)
    else { addr := h.addr + w, len := h.len - w, key := h.key } :: t

/-! ## C3: the scatter-gather write planner `xmtr_targets_write`
(fget.c:1923-2041) and `xmtr_buf_split` (fget.c:1882-1906)

The buffer-selection loop is embedded as a recursion producing the list of
selections it makes.  The constants fixed before the loop — `maxbytes` (sum of
the first `maxriovs` advertised lengths) and
`riovs_maxed_out = x->nriovs >= global_state.rma_maxsegs` — are parameters;
the fuel parameter plays the role of the `i < maxriovs` loop bound. -/

/-- A payload buffer at the transmitter: its used byte count and its
outstanding-fragment count `xfc.nchildren`. -/
structure PayBuf where
  nused : Nat
  nchildren : Nat
  deriving DecidableEq, Repr

/-- One selection made by the planner loop. -/
inductive PlanEvent where
  /-- The whole head buffer (from `fragment.offset` to `nused`) was taken off
  `ready_for_cxn` and pushed onto `wrposted`. -/
  | whole (len : Nat)
  /-- `xmtr_buf_split` carved a fragment: `unsent` is the head's unsent byte
  count `nused - fragment.offset`, `remcap` the remaining advertised capacity
  `maxbytes - total`; the fragment has length `remcap`, the parent's
  `nchildren` is incremented, and the parent stays at the head of
  `ready_for_cxn`. -/
  | frag (unsent remcap : Nat)
  deriving DecidableEq, Repr

/-- State threaded through the planner loop. -/
structure PlanState where
  /-- `s->ready_for_cxn`, head first. -/
  ready : List PayBuf
  /-- `x->fragment.offset`: offset into the buffer at the head of
  `ready_for_cxn`. -/
  fragOffset : Nat
  /-- Free slots of `x->wrposted` (`!fifo_full` iff positive). -/
  wrRoom : Nat
  /-- Cumulative selected length `total`. -/
  total : Nat
  deriving DecidableEq, Repr

/-- Embedding of the selection loop of `xmtr_targets_write`
(fget.c:1939-1999).  `riovsMaxedOut` is `x->nriovs >= global_state.rma_maxsegs`
and `maxbytes` the advertised capacity, both computed before the loop; `fuel`
counts the remaining iterations allowed by `i < maxriovs`.  Loop body:
the head's unsent load is oversize when it exceeds `maxbytes - total`; an
oversize head is fragmented (`xmtr_buf_split`, fget.c:1882-1906: the parent's
`nchildren` is incremented and the parent is not dequeued) only when
`riovsMaxedOut`, otherwise the loop breaks; a fitting head is dequeued whole.
`nchildren` is reset to 0 whenever a buffer is first selected
(`fragment.offset == 0`). -/
def xmtr_targets_write_plan (riovsMaxedOut : Bool) (maxbytes : Nat) :
    Nat → PlanState → List PlanEvent × PlanState
  | 0, st => ([], st)
  | fuel + 1, st =>
    match st.ready with
    | [] => ([], st)
    | head :: rest =>
      if st.total < maxbytes ∧ 0 < st.wrRoom then
        let head0 : PayBuf :=
          if st.fragOffset = 0 then { head with nchildren := 0 } else head
        if head.nused - st.fragOffset > maxbytes - st.total then
          if riovsMaxedOut then
            -- `xmtr_buf_split`: fragment of length `maxbytes - total`;
            -- the parent stays at the head of `ready_for_cxn`.
            let len := maxbytes - st.total
            let res := xmtr_targets_write_plan riovsMaxedOut maxbytes fuel
              { ready := { head0 with nchildren := head0.nchildren + 1 } :: rest
              , fragOffset := st.fragOffset + len
              , wrRoom := st.wrRoom - 1
              , total := st.total + len }
            (.frag (head.nused - st.fragOffset) len :: res.1, res.2)
          else ([], st)
        else
          let len := head.nused - st.fragOffset
          let res := xmtr_targets_write_plan riovsMaxedOut maxbytes fuel
            { ready := rest
            , fragOffset := 0
            , wrRoom := st.wrRoom - 1
            , total := st.total + len }
          (.whole len :: res.1, res.2)
      else ([], st)

/-! ## C4: `rcvr_targets_read` (fget.c:1340-1377) -/

/-- An RDMA target buffer queued on `tgtposted`: received byte count `nused`
and allocation `nallocated`. -/
structure TBuf where
  nused : Nat
  nallocated : Nat
  deriving DecidableEq, Repr

/-- Embedding of the credit-consuming loop of `rcvr_targets_read`
(fget.c:1346-1362).  Arguments: the byte credit `r->nfull`, the queue
`r->tgtposted` (head first), and the free slots of `s->ready_for_terminal`.
Returns the buffers released to the terminal (in order), the remaining queue,
the remaining credit, and the remaining room. -/
def rcvr_targets_read_loop : Nat → List TBuf → Nat →
    List TBuf × List TBuf × Nat × Nat
  | nfull, [], room => ([], [], nfull, room)
  | nfull, h :: t, room =>
    if nfull = 0 then ([], h :: t, nfull, room)
    else if room = 0 then ([], h :: t, nfull, room)
    else if h.nused + nfull < h.nallocated then
      ([], { nused := h.nused + nfull, nallocated := h.nallocated } :: t, 0, room)
    else
      let res := rcvr_targets_read_loop (nfull - (h.nallocated - h.nused)) t (room - 1)
      ({ nused := h.nallocated, nallocated := h.nallocated } :: res.1, res.2.1,
        res.2.2.1, res.2.2.2)

/-- Embedding of `rcvr_targets_read` (fget.c:1340-1377): the credit loop
followed by the remote-EOF clause that takes a partially filled head off the
queue.  The C code ignores the result of the final `fifo_put`, so when
`ready_for_terminal` is full the partial buffer is dropped rather than
released; it leaves the queue either way. -/
def rcvr_targets_read (nfull : Nat) (tgt : List TBuf) (room : Nat)
    (eofRemote : Bool) : List TBuf × List TBuf × Nat :=
  let res := rcvr_targets_read_loop nfull tgt room
  match res.2.1 with
  | [] => (res.1, [], res.2.2.1)
  | h :: t =>
    if eofRemote ∧ h.nused ≠ 0 then
      (if 0 < res.2.2.2 then res.1 ++ [h] else res.1, t, res.2.2.1)
    else (res.1, h :: t, res.2.2.1)

/-! ## C5 (receiver side): `rcvr_vector_update` (fget.c:1294-1338) -/

/-- The receiver state touched by `rcvr_vector_update`: the EOF flags, the
vector-message transmit queue (`vec.ready`, recorded as the `niovs` field of
each queued message) with its capacity, the vecbuf pool's fill count, the
payload buffers waiting on `ready_for_cxn` (recorded by their `nallocated`),
and the posted-target queue `tgtposted`. -/
structure RcvrVecSt where
  eofRemote : Bool
  eofLocal : Bool
  vecReady : List Nat
  vecCap : Nat
  vecPool : Nat
  readyForCxn : List Nat
  tgtposted : List TBuf
  deriving DecidableEq, Repr

/-- The packing loop of `rcvr_vector_update` (fget.c:1312-1337): while
`vec.ready` is not full, `ready_for_cxn` is non-empty, and the pool lends a
vecbuf, pull up to 12 payload buffers, zero their `nused`, queue them on
`tgtposted`, and enqueue one vector message advertising them. -/
def rcvr_vector_update_pack (st : RcvrVecSt) : RcvrVecSt :=
  if h : st.vecCap ≤ st.vecReady.length ∨ st.readyForCxn = [] ∨ st.vecPool = 0 then
    st
  else
    rcvr_vector_update_pack
      { st with
        vecPool := st.vecPool - 1
      , vecReady := st.vecReady ++ [min 12 st.readyForCxn.length]
      , readyForCxn := st.readyForCxn.drop 12
      , tgtposted := st.tgtposted ++
          (st.readyForCxn.take 12).map fun alloc => { nused := 0, nallocated := alloc } }
  termination_by st.readyForCxn.length
  decreasing_by
    simp only [List.length_drop]
    push_neg at h
    have hp : 0 < st.readyForCxn.length := List.length_pos.mpr h.2.1
    omega

/-- Embedding of `rcvr_vector_update` (fget.c:1294-1338).  If the remote has
declared EOF, we have not declared ours, `vec.ready` has room and the pool
lends a buffer, enqueue the zero-count closing vector and set `eof.local`;
otherwise run the packing loop. -/
def rcvr_vector_update (st : RcvrVecSt) : RcvrVecSt :=
  if st.eofRemote ∧ ¬st.eofLocal ∧ st.vecReady.length < st.vecCap ∧ 0 < st.vecPool then
    { st with
      vecReady := st.vecReady ++ [0]
    , vecPool := st.vecPool - 1
    , eofLocal := true }
  else
    rcvr_vector_update_pack st

/-! ## C5 (transmitter side) and C10: `xmtr_progress_update`
(fget.c:2043-2084) -/

/-- The transmitter state touched by `xmtr_progress_update`: the terminal's
EOF flag, emptiness of `ready_for_cxn` and `wrposted`, the local-EOF flag,
the delivery-complete byte count `bytes_progress`, and the progress transmit
queue (`progress.ready`, as `(nfilled, nleftover)` pairs) with its capacity
and its pool's fill count. -/
structure XmtrProgSt where
  terminalEof : Bool
  readyForCxnEmpty : Bool
  wrpostedEmpty : Bool
  eofLocal : Bool
  bytesProgress : Nat
  progReady : List (Nat × Nat)
  progCap : Nat
  progPool : Nat
  deriving DecidableEq, Repr

/-- The condition under which `xmtr_progress_update` declares local EOF
(fget.c:2053-2055): terminal drained, `ready_for_cxn` and `wrposted` empty,
and the closing progress message not previously sent. -/
def xmtr_reached_eof (st : XmtrProgSt) : Bool :=
  st.terminalEof && st.readyForCxnEmpty && st.wrpostedEmpty && !st.eofLocal

/-- Embedding of `xmtr_progress_update` (fget.c:2043-2084): if there is
progress to report or local EOF to declare, and `progress.ready` has room and
the pool lends a progbuf, enqueue `(bytes_progress, reached_eof ? 0 : 1)`,
reset `bytes_progress`, and set `eof.local` when closing. -/
def xmtr_progress_update (st : XmtrProgSt) : XmtrProgSt :=
  let reached_eof := xmtr_reached_eof st
  if st.bytesProgress = 0 ∧ reached_eof = false then st
  else if st.progCap ≤ st.progReady.length then st
  else if st.progPool = 0 then st
  else
    { st with
      progPool := st.progPool - 1
    , progReady := st.progReady ++ [(st.bytesProgress, if reached_eof then 0 else 1)]
    , bytesProgress := 0
    , eofLocal := st.eofLocal || reached_eof }

/-! ## C6: `keysource_next` (fget.c:646-655) and the pool `next_key_pool`
(fget.c:461)

Each `keysource_t` holds an owner-private counter `next_key`; the only shared
access in `keysource_next` is one atomic fetch-and-add on the process-wide
`next_key_pool`, so an interleaved execution of many key sources is faithfully
modelled as a sequence of whole `keysource_next` steps on a state holding the
pool and every source's counter. -/

/-- The process-wide key-allocation state: the atomic pool `next_key_pool`
(initially 512) and the `next_key` counter of every key source, indexed by
owner. -/
structure KSGlobal where
  pool : Nat
  nextKey : Nat → Nat

/-- Embedding of `keysource_next` (fget.c:646-655) acting on source `i`:
when the counter sits on a 256-block boundary, fetch-and-add 256 from the
pool (the fetch returns the pool's previous value); return the counter and
post-increment it. -/
def keysource_next (st : KSGlobal) (i : Nat) : Nat × KSGlobal :=
  if st.nextKey i % 256 = 0 then
    (st.pool,
      { pool := st.pool + 256
      , nextKey := fun j => if j = i then st.pool + 1 else st.nextKey j })
  else
    (st.nextKey i,
      { pool := st.pool
      , nextKey := fun j => if j = i then st.nextKey i + 1 else st.nextKey j })

/-- Run a trace of `keysource_next` calls (each entry names the source making
the call) and collect the `(source, key)` outputs in order. -/
def keysource_run (st : KSGlobal) : List Nat → List (Nat × Nat)
  | [] => []
  | i :: t =>
    (i, (keysource_next st i).1) :: keysource_run (keysource_next st i).2 t

/-- The keys returned to source `i`, in order, within a trace output. -/
def keysOf (i : Nat) (out : List (Nat × Nat)) : List Nat :=
  (out.filter fun p => p.1 == i).map Prod.snd

/-- The initial state: `next_key_pool = 512` (fget.c:461) and every source's
counter zeroed by `keysource_init` (fget.c:640-644). -/
def ks_init : KSGlobal := { pool := 512, nextKey := fun _ => 0 }

/-- The next multiple of 256 at or above `n`: the boundary at which a key
source returns to the shared pool. -/
def roundUp256 (n : Nat) : Nat :=
  if n % 256 = 0 then n else n + (256 - n % 256)

/-- The keys a source whose counter stands at `nk` will still hand out of
its current 256-block before refetching: the half-open interval
`[nk, roundUp256 nk)` (empty on a block boundary). -/
def ks_region (nk k : Nat) : Prop := nk ≤ k ∧ k < roundUp256 nk

/-- Invariant of every reachable allocator state: the pool sits on a block
boundary, every source's reserved block lies below the pool, and reserved
blocks of distinct sources are disjoint. -/
def ks_inv (st : KSGlobal) : Prop :=
  st.pool % 256 = 0 ∧
  (∀ i, roundUp256 (st.nextKey i) ≤ st.pool) ∧
  (∀ i j k, i ≠ j → ks_region (st.nextKey i) k → ¬ ks_region (st.nextKey j) k)

/-! ## C7: `txctl_transmit` (fget.c:1037-1063) -/

/-- A call to `fi_sendmsg` made by `txctl_transmit`: the buffer handed over,
the I/O-vector count of the message, and the destination address. -/
structure Submission where
  bufId : Nat
  iovCount : Nat
  addr : Nat
  deriving DecidableEq, Repr

/-- The fabric's answer to one `fi_sendmsg`. -/
inductive SendRes where
  | ok
  | again
  | err
  deriving DecidableEq, Repr

/-- The FIFOs of a `txctl_t` during `txctl_transmit`: the ready queue, the
posted queue (both head first, buffers named by identifier), and the posted
FIFO's capacity. -/
structure TxSt where
  ready : List Nat
  posted : List Nat
  cap : Nat
  deriving DecidableEq, Repr

/-- Embedding of `txctl_transmit` (fget.c:1037-1063).  `peer` is
`c->peer_addr`; `oracle n` is the fabric's answer to the `n`-th `fi_sendmsg`
of the loop, counted from `attempt`.  While the ready FIFO is non-empty and
the posted FIFO is not full, the head is handed to the fabric as a
single-IOV send to the peer: on success it moves from ready to posted; on
`-FI_EAGAIN` the loop breaks; on any other error `bailout_for_ofi_ret`
terminates the process (result `none`).  Also returns the submissions made. -/
def txctl_transmit (peer : Nat) (oracle : Nat → SendRes) :
    Nat → TxSt → Option TxSt × List Submission
  | _, { ready := [], posted := p, cap := c } =>
    (some { ready := [], posted := p, cap := c }, [])
  | attempt, { ready := h :: t, posted := p, cap := c } =>
    if p.length = c then (some { ready := h :: t, posted := p, cap := c }, [])
    else
      let sub : Submission := { bufId := h, iovCount := 1, addr := peer }
      match oracle attempt with
      | .ok =>
        let res :=
          txctl_transmit peer oracle (attempt + 1)
            { ready := t, posted := p ++ [h], cap := c }
        (res.1, sub :: res.2)
      | .again => (some { ready := h :: t, posted := p, cap := c }, [sub])
      | .err => (none, [sub])
  termination_by _ st => st.ready.length

/-! ## C8: `sink_trade` (fget.c:1146-1183) -/

/-- `loop_control_t` (fget.c:138-142). -/
inductive LoopControl where
  | loop_continue
  | loop_end
  | loop_error
  deriving DecidableEq, Repr

/-- The sink's private state (fget.c:153-158): cumulative byte offset `idx`,
the pattern length `txbuflen`, the total transfer length `entirelen`, and the
terminal's EOF flag. -/
structure SinkSt where
  idx : Nat
  txbuflen : Nat
  entirelen : Nat
  eof : Bool
  deriving DecidableEq, Repr

/-- A payload buffer on the sink's ready queue is its used bytes (`nused` is
the list's length). -/
abbrev SinkBuf := List Nat

/-- The byte-for-byte verification of one buffer performed by the inner loop
of `sink_trade` (fget.c:1162-1169): every used byte must equal the repeating
test pattern `txbuf` at the sink's running offset. -/
def sink_buf_matches (pattern : List Nat) (tlen idx : Nat) (b : SinkBuf) : Bool :=
  (List.range b.length).all fun ofs =>
    b.getD ofs 0 == pattern.getD ((idx + ofs) % tlen) 0

/-- Total byte count of a buffer sequence. -/
def sink_bytes (l : List SinkBuf) : Nat := (l.map List.length).sum

/-- The acceptance test the loop body applies to the buffer at the head of
`ready`, at running offset `idx`: accepting it must not push the byte total
past `entirelen` (fget.c:1159), and its bytes must match the pattern
(fget.c:1162-1169). -/
def sink_buf_ok (pattern : List Nat) (tlen ent idx : Nat) (b : SinkBuf) : Bool :=
  (idx + b.length ≤ ent) && sink_buf_matches pattern tlen idx b

/-- Specification-level statement that a sequence of buffers passes the
sink's byte-for-byte verification, each at its cumulative offset. -/
def sink_verified (pattern : List Nat) (tlen ent : Nat) : Nat → List SinkBuf → Bool
  | _, [] => true
  | idx, b :: t =>
    sink_buf_ok pattern tlen ent idx b &&
      sink_verified pattern tlen ent (idx + b.length) t

/-- The consuming loop of `sink_trade` (fget.c:1155-1174): while a buffer is
ready and the completed FIFO has room, reject a buffer that would overrun
`entirelen` or that mismatches the pattern (`goto fail`, leaving it on the
ready queue); otherwise move it to completed and advance `idx`.  Returns the
final offset, the buffers left on ready, the buffers moved to completed, and
whether verification failed. -/
def sink_trade_loop (pattern : List Nat) (tlen ent : Nat) :
    Nat → List SinkBuf → Nat → Nat × List SinkBuf × List SinkBuf × Bool
  | idx, [], _ => (idx, [], [], false)
  | idx, b :: t, room =>
    if room = 0 then (idx, b :: t, [], false)
    else if ent < b.length + idx then (idx, b :: t, [], true)
    else if ¬ sink_buf_matches pattern tlen idx b then (idx, b :: t, [], true)
    else
      let res := sink_trade_loop pattern tlen ent (idx + b.length) t (room - 1)
      (res.1, res.2.1, b :: res.2.2.1, res.2.2.2)

/-- Embedding of `sink_trade` (fget.c:1146-1183).  `room` is the free space
of the completed FIFO.  Entry check: EOF with data still on ready is an
error.  After the loop: an error if verification failed, `loop_end` (setting
EOF) exactly when `idx` reached `entirelen`, else `loop_continue`. -/
def sink_trade (pattern : List Nat) (st : SinkSt) (ready : List SinkBuf)
    (room : Nat) : LoopControl × SinkSt × List SinkBuf × List SinkBuf :=
  if st.eof ∧ ready ≠ [] then (.loop_error, st, ready, [])
  else
    let res := sink_trade_loop pattern st.txbuflen st.entirelen st.idx ready room
    if res.2.2.2 then (.loop_error, { st with idx := res.1 }, res.2.1, res.2.2.1)
    else if res.1 ≠ st.entirelen then
      (.loop_continue, { st with idx := res.1 }, res.2.1, res.2.2.1)
    else (.loop_end, { st with idx := res.1, eof := true }, res.2.1, res.2.2.1)

/-! ## C9: `fifo_cancel` (fget.c:973-990) -/

/-- A buffer seen by `fifo_cancel`: its identity (distinct buffers are
distinct C pointers) and its `xfc.cancelled` flag. -/
structure CBuf where
  id : Nat
  cancelled : Bool
  deriving DecidableEq, Repr

/-- Mark a buffer's transfer context cancelled (`h->xfc.cancelled = 1`). -/
def cbuf_cancel (b : CBuf) : CBuf := { b with cancelled := true }

/-- The rotation loop of `fifo_cancel` (fget.c:979-989): peek the head; stop
when it is the first buffer processed (pointer comparison `h == first`);
otherwise dequeue it, mark it cancelled, ask the fabric to cancel it
(`fi_cancel`, an external effect), and re-enqueue it at the tail.  The C loop
has no iteration bound; `fuel` only limits the recursion depth and
`fifo_cancel` supplies enough for one full rotation. -/
def fifo_cancel_go : Nat → Option Nat → List CBuf → List CBuf
  | 0, _, l => l
  | _ + 1, _, [] => []
  | fuel + 1, first, h :: t =>
    if first = some h.id then h :: t
    else
      fifo_cancel_go fuel (some (first.getD h.id)) (t ++ [cbuf_cancel h])

/-- Embedding of `fifo_cancel` (fget.c:973-990). -/
def fifo_cancel (l : List CBuf) : List CBuf :=
  fifo_cancel_go (l.length + 1) none l

/-!
# Theorems

## C1: wellformedness of received vector messages
-/

/-- C1, counterexample.  The claim "a received vector message is wellformed
if and only if its wire length equals the header size plus `niovs` times the
record size" is false at `nused = 56`, `niovs = 1`: the length 56 is two
records past the 8-byte header, yet `vecbuf_is_wellformed` accepts the
message, because the code only requires the length to cover `niovs` whole
records, not to equal the exact count. -/
theorem vecbuf_is_wellformed_not_exact_length :
    ¬ (vecbuf_is_wellformed 56 1 = true ↔
        56 = vector_msg_header_len + 1 * vector_msg_iov_size) := by
  decide

/-- C1, amended.  A received vector message is wellformed iff its wire
length is at least the 8-byte header, the excess over the header is a whole
number of 24-byte advertisement records, those records cover at least
`niovs`, and `niovs ≤ 12`; in particular the spec's exact length
`header + niovs * record` with `niovs ≤ 12` is wellformed.  A malformed
message is rejected without aborting the connection:
`xmtr_vector_rx_process` reposts its buffer for receive and reports no
completion. -/
theorem vecbuf_is_wellformed_characterization (nused niovs : Nat) (rcvdFull : Bool) :
    (vecbuf_is_wellformed nused niovs = true ↔
      (vector_msg_header_len ≤ nused ∧
        (nused - vector_msg_header_len) % vector_msg_iov_size = 0 ∧
        niovs ≤ (nused - vector_msg_header_len) / vector_msg_iov_size ∧
        niovs ≤ 12)) ∧
    (niovs ≤ 12 →
      vecbuf_is_wellformed (vector_msg_header_len + niovs * vector_msg_iov_size)
        niovs = true) ∧
    (vecbuf_is_wellformed nused niovs = false →
      xmtr_vector_rx_process false false nused niovs rcvdFull = .repostedMalformed ∧
      vecRxReturn (xmtr_vector_rx_process false false nused niovs rcvdFull) = 0) := by
  refine ⟨?_, ?_, ?_⟩
  · unfold vecbuf_is_wellformed vector_msg_header_len vector_msg_iov_size
    split_ifs with h1 h2 h3 h4 <;> simp_all
  · intro h
    unfold vecbuf_is_wellformed vector_msg_header_len vector_msg_iov_size
    split_ifs with h1 h2 h3 h4 <;> first | rfl | omega
  · intro h
    simp [xmtr_vector_rx_process, h, vecRxReturn]

/-- C1, witness for the amended theorem: the exact spec length
`8 + 3·24 = 80` with `niovs = 3` is wellformed, and the malformed length 31
is reposted with return value 0. -/
theorem vecbuf_is_wellformed_characterization_witness :
    vecbuf_is_wellformed (vector_msg_header_len + 3 * vector_msg_iov_size) 3 = true ∧
    xmtr_vector_rx_process false false 31 2 false = .repostedMalformed := by
  refine ⟨(vecbuf_is_wellformed_characterization 80 3 false).2.1 (by decide), ?_⟩
  exact ((vecbuf_is_wellformed_characterization 31 2 false).2.2 (by decide)).1

/-! ## C2: `write_fully` writes the minimum and leaves the residue -/

/-- With `n` at least the length of `l`, `take (min n (length l))` and
`take n` agree (the C code computes the `min` explicitly, `List.take`
implicitly). -/
theorem take_min_length {α : Type} (l : List α) (n : Nat) :
    l.take (min n l.length) = l.take n := by
  rcases le_total n l.length with h | h
  · rw [min_eq_left h]
  · rw [min_eq_right h, List.take_length, List.take_of_length_le h]

/-- The residue loop at `nrem = 0` copies a positive-length vector
verbatim. -/
theorem write_fully_iov_residue_zero (l : List Iovec)
    (h : ∀ x ∈ l, 0 < x.iov_len) : write_fully_iov_residue l 0 = l := by
  induction l with
  | nil => rfl
  | cons a t ih =>
    have ha := h a (List.mem_cons_self a t)
    simp only [write_fully_iov_residue]
    rw [if_neg (by omega), if_neg (by omega)]
    rw [ih fun x hx => h x (List.mem_cons_of_mem a hx)]

/-- The residue loop at `nrem = 0` copies a positive-length remote vector
verbatim. -/
theorem write_fully_riov_residue_zero (l : List RmaIov)
    (h : ∀ x ∈ l, 0 < x.len) : write_fully_riov_residue l 0 = l := by
  induction l with
  | nil => rfl
  | cons a t ih =>
    have ha := h a (List.mem_cons_self a t)
    simp only [write_fully_riov_residue]
    rw [if_neg (by omega), if_neg (by omega)]
    rw [ih fun x hx => h x (List.mem_cons_of_mem a hx)]

/-- On positive-length vectors the code's residue loop computes exactly the
specification's suffix. -/
theorem write_fully_iov_residue_eq_spec (l : List Iovec) (w : Nat)
    (h : ∀ x ∈ l, 0 < x.iov_len) :
    write_fully_iov_residue l w = spec_residue_iov l w := by
  induction l generalizing w with
  | nil => rfl
  | cons a t ih =>
    have ht : ∀ x ∈ t, 0 < x.iov_len := fun x hx => h x (List.mem_cons_of_mem a hx)
    simp only [write_fully_iov_residue, spec_residue_iov]
    by_cases hle : a.iov_len ≤ w
    · rw [if_pos hle, if_pos hle, ih _ ht]
    · rw [if_neg hle, if_neg hle]
      by_cases hw : 0 < w
      · rw [if_pos hw, write_fully_iov_residue_zero t ht]
      · rw [if_neg hw]
        have hw0 : w = 0 := by omega
        subst hw0
        rw [write_fully_iov_residue_zero t ht]
        cases a
        simp

/-- On positive-length remote vectors the code's residue loop computes
exactly the specification's suffix. -/
theorem write_fully_riov_residue_eq_spec (l : List RmaIov) (w : Nat)
    (h : ∀ x ∈ l, 0 < x.len) :
    write_fully_riov_residue l w = spec_residue_riov l w := by
  induction l generalizing w with
  | nil => rfl
  | cons a t ih =>
    have ht : ∀ x ∈ t, 0 < x.len := fun x hx => h x (List.mem_cons_of_mem a hx)
    simp only [write_fully_riov_residue, spec_residue_riov]
    by_cases hle : a.len ≤ w
    · rw [if_pos hle, if_pos hle, ih _ ht]
    · rw [if_neg hle, if_neg hle]
      by_cases hw : 0 < w
      · rw [if_pos hw, write_fully_riov_residue_zero t ht]
      · rw [if_neg hw]
        have hw0 : w = 0 := by omega
        subst hw0
        rw [write_fully_riov_residue_zero t ht]
        cases a
        simp

/-- C2, confirmed.  For vectors of positive-length segments (the only kind
the transmitter builds), `write_fully` reports exactly
`min(sum of first min(maxsegs, niovs) local lengths,
     sum of first min(maxsegs, nriovs) remote lengths,
     requested length, SSIZE_MAX)` bytes written, and the output local and
remote vectors are exactly the residue suffixes — the partially consumed
segment advanced (base/addr up, length down) — with the output counts equal
to the number of residual segments. -/
theorem write_fully_min_and_residue (iov : List Iovec) (riov : List RmaIov)
    (reqlen maxsegs : Nat)
    (hl : ∀ x ∈ iov, 0 < x.iov_len) (hr : ∀ x ∈ riov, 0 < x.len) :
    (write_fully iov riov reqlen maxsegs).nwritten =
      min (min (sum_iov_len (iov.take (min maxsegs iov.length)))
          (sum_riov_len (riov.take (min maxsegs riov.length))))
        (min reqlen SSIZE_MAX) ∧
    (write_fully iov riov reqlen maxsegs).iov_out =
      spec_residue_iov iov (write_fully iov riov reqlen maxsegs).nwritten ∧
    (write_fully iov riov reqlen maxsegs).niovs_out =
      (spec_residue_iov iov (write_fully iov riov reqlen maxsegs).nwritten).length ∧
    (write_fully iov riov reqlen maxsegs).riov_out =
      spec_residue_riov riov (write_fully iov riov reqlen maxsegs).nwritten ∧
    (write_fully iov riov reqlen maxsegs).nriovs_out =
      (spec_residue_riov riov (write_fully iov riov reqlen maxsegs).nwritten).length := by
  have hiov := write_fully_iov_residue_eq_spec iov
    (write_fully_nwritten iov riov reqlen maxsegs) hl
  have hriov := write_fully_riov_residue_eq_spec riov
    (write_fully_nwritten iov riov reqlen maxsegs) hr
  have hn : (write_fully iov riov reqlen maxsegs).nwritten =
      write_fully_nwritten iov riov reqlen maxsegs := rfl
  have h2 : (write_fully iov riov reqlen maxsegs).iov_out =
      write_fully_iov_residue iov (write_fully_nwritten iov riov reqlen maxsegs) := rfl
  have h3 : (write_fully iov riov reqlen maxsegs).niovs_out =
      (write_fully_iov_residue iov
        (write_fully_nwritten iov riov reqlen maxsegs)).length := rfl
  have h4 : (write_fully iov riov reqlen maxsegs).riov_out =
      write_fully_riov_residue riov (write_fully_nwritten iov riov reqlen maxsegs) := rfl
  have h5 : (write_fully iov riov reqlen maxsegs).nriovs_out =
      (write_fully_riov_residue riov
        (write_fully_nwritten iov riov reqlen maxsegs)).length := rfl
  refine ⟨?_, ?_, ?_, ?_, ?_⟩
  · rw [hn, take_min_length, take_min_length]
    rfl
  · rw [h2, hn, hiov]
  · rw [h3, hn, hiov]
  · rw [h4, hn, hriov]
  · rw [h5, hn, hriov]

/-- C2, witness: two local segments of lengths 2 and 3 against one remote
advertisement of length 4; the minimum is 4 and the residues are the last
byte of the second local segment and no remote segment. -/
theorem write_fully_min_and_residue_witness :
    (write_fully [⟨100, 2⟩, ⟨200, 3⟩] [⟨0, 4, 7⟩] 100 12).nwritten =
      min (min (sum_iov_len (([⟨100, 2⟩, ⟨200, 3⟩] : List Iovec).take
            (min 12 ([⟨100, 2⟩, ⟨200, 3⟩] : List Iovec).length)))
          (sum_riov_len (([⟨0, 4, 7⟩] : List RmaIov).take
            (min 12 ([⟨0, 4, 7⟩] : List RmaIov).length))))
        (min 100 SSIZE_MAX) ∧
    (write_fully [⟨100, 2⟩, ⟨200, 3⟩] [⟨0, 4, 7⟩] 100 12).iov_out =
      spec_residue_iov [⟨100, 2⟩, ⟨200, 3⟩]
        (write_fully [⟨100, 2⟩, ⟨200, 3⟩] [⟨0, 4, 7⟩] 100 12).nwritten := by
  have h := write_fully_min_and_residue [⟨100, 2⟩, ⟨200, 3⟩] [⟨0, 4, 7⟩] 100 12
    (by decide) (by decide)
  exact ⟨h.1, h.2.1⟩

/-! ## C3: fragmentation only with all advertisement slots in hand -/

/-- C3, confirmed.  In every run of the planner loop, a fragmentation event
occurs only when `nriovs >= rma_maxsegs` (`maxed`) and the head's unsent
bytes strictly exceed the remaining advertised capacity; and when the head
is oversize while `nriovs < rma_maxsegs`, the planner stops selecting
buffers at once, leaving its state unchanged. -/
theorem xmtr_targets_write_frag_policy (maxed : Bool) (maxbytes : Nat)
    (st : PlanState) :
    (∀ fuel u c,
      PlanEvent.frag u c ∈ (xmtr_targets_write_plan maxed maxbytes fuel st).1 →
        maxed = true ∧ c < u) ∧
    (∀ fuel head rest, st.ready = head :: rest →
      st.total < maxbytes → 0 < st.wrRoom →
      maxbytes - st.total < head.nused - st.fragOffset → maxed = false →
      xmtr_targets_write_plan maxed maxbytes (fuel + 1) st = ([], st)) := by
  constructor
  · intro fuel
    induction fuel generalizing st with
    | zero =>
      intro u c hmem
      simp [xmtr_targets_write_plan] at hmem
    | succ n ih =>
      intro u c hmem
      cases hready : st.ready with
      | nil => simp [xmtr_targets_write_plan, hready] at hmem
      | cons head rest =>
        simp only [xmtr_targets_write_plan, hready] at hmem
        by_cases hcond : st.total < maxbytes ∧ 0 < st.wrRoom
        · rw [if_pos hcond] at hmem
          by_cases hover : head.nused - st.fragOffset > maxbytes - st.total
          · rw [if_pos hover] at hmem
            by_cases hmax : maxed = true
            · rw [if_pos hmax] at hmem
              rcases List.mem_cons.mp hmem with heq | htail
              · injection heq with h1 h2
                subst h1
                subst h2
                exact ⟨hmax, by omega⟩
              · exact ih _ _ _ htail
            · rw [if_neg hmax] at hmem
              simp at hmem
          · rw [if_neg hover] at hmem
            rcases List.mem_cons.mp hmem with heq | htail
            · exact absurd heq (by simp)
            · exact ih _ _ _ htail
        · rw [if_neg hcond] at hmem
          simp at hmem
  · intro fuel head rest hready hlt hroom hover hmaxed
    simp only [xmtr_targets_write_plan, hready]
    rw [if_pos ⟨hlt, hroom⟩, if_pos (by omega), if_neg (by simp [hmaxed])]

/-- C3, witness: a 25-byte head against 10 advertised bytes.  With
`nriovs < rma_maxsegs` the planner selects nothing; the same configuration
with all slots in hand does fragment, and the recorded capacity 10 is below
the unsent 25. -/
theorem xmtr_targets_write_frag_policy_witness :
    xmtr_targets_write_plan false 10 12
        { ready := [⟨25, 0⟩], fragOffset := 0, wrRoom := 8, total := 0 } =
      ([], { ready := [⟨25, 0⟩], fragOffset := 0, wrRoom := 8, total := 0 }) ∧
    (10 : Nat) < 25 := by
  refine ⟨(xmtr_targets_write_frag_policy false 10 _).2 11 ⟨25, 0⟩ [] rfl
    (by decide) (by decide) (by decide) rfl, ?_⟩
  exact ((xmtr_targets_write_frag_policy true 10
    { ready := [⟨25, 0⟩], fragOffset := 0, wrRoom := 8, total := 0 }).1
    12 25 10 (by decide)).2

/-! ## C4: buffers released to the terminal are credit-covered -/

/-- The credit loop releases only completely filled buffers
(`nused = nallocated`), and it preserves the queue invariant that every
still-queued target is strictly below its allocation. -/
theorem rcvr_targets_read_loop_spec (nfull : Nat) (tgt : List TBuf) (room : Nat) :
    (∀ b ∈ (rcvr_targets_read_loop nfull tgt room).1, b.nused = b.nallocated) ∧
    ((∀ b ∈ tgt, b.nused < b.nallocated) →
      ∀ b ∈ (rcvr_targets_read_loop nfull tgt room).2.1, b.nused < b.nallocated) := by
  induction tgt generalizing nfull room with
  | nil => simp [rcvr_targets_read_loop]
  | cons h t ih =>
    simp only [rcvr_targets_read_loop]
    split_ifs with h0 hr hfit
    · exact ⟨by simp, fun hq => hq⟩
    · exact ⟨by simp, fun hq => hq⟩
    · refine ⟨by simp, fun hq b hb => ?_⟩
      rcases List.mem_cons.mp hb with heq | htail
      · subst heq
        have := hq h (List.mem_cons_self h t)
        simp
        omega
      · exact hq b (List.mem_cons_of_mem h htail)
    · obtain ⟨ihrel, ihq⟩ := ih (nfull - (h.nallocated - h.nused)) (room - 1)
      refine ⟨fun b hb => ?_, fun hq => ihq fun b hb => hq b (List.mem_cons_of_mem h hb)⟩
      rcases List.mem_cons.mp hb with heq | htail
      · subst heq
        rfl
      · exact ihrel b htail

/-- C4, confirmed.  Provided every queued RDMA target is strictly below its
allocation (they enter `tgtposted` with `nused = 0`), every buffer
`rcvr_targets_read` releases to the terminal satisfies
`nused ≤ nallocated`, and the released sequence splits into completely
filled buffers (`nused = nallocated`) followed by at most one buffer with
`0 < nused < nallocated`, the latter possible only when remote EOF has been
observed. -/
theorem rcvr_targets_read_release_invariant (nfull : Nat) (tgt : List TBuf)
    (room : Nat) (eofRemote : Bool)
    (hq : ∀ b ∈ tgt, b.nused < b.nallocated) :
    (∀ b ∈ (rcvr_targets_read nfull tgt room eofRemote).1,
      b.nused ≤ b.nallocated) ∧
    ∃ fulls pt, (rcvr_targets_read nfull tgt room eofRemote).1 = fulls ++ pt ∧
      (∀ b ∈ fulls, b.nused = b.nallocated) ∧
      (pt = [] ∨ (eofRemote = true ∧
        ∃ p, pt = [p] ∧ 0 < p.nused ∧ p.nused < p.nallocated)) := by
  obtain ⟨hrel, hinv⟩ := rcvr_targets_read_loop_spec nfull tgt room
  have hinv' := hinv hq
  suffices hdec : ∃ fulls pt,
      (rcvr_targets_read nfull tgt room eofRemote).1 = fulls ++ pt ∧
      (∀ b ∈ fulls, b.nused = b.nallocated) ∧
      (pt = [] ∨ (eofRemote = true ∧
        ∃ p, pt = [p] ∧ 0 < p.nused ∧ p.nused < p.nallocated)) by
    refine ⟨?_, hdec⟩
    obtain ⟨fulls, pt, heq, hf, hp⟩ := hdec
    intro b hb
    rw [heq] at hb
    rcases List.mem_append.mp hb with hbf | hbp
    · exact le_of_eq (hf b hbf)
    · rcases hp with rfl | ⟨_, p, rfl, _, hplt⟩
      · simp at hbp
      · rw [List.mem_singleton.mp hbp]
        exact le_of_lt hplt
  simp only [rcvr_targets_read]
  split
  · exact ⟨_, [], by simp, hrel, Or.inl rfl⟩
  · rename_i h t hmatch
    have hh : h.nused < h.nallocated := hinv' h (by rw [hmatch]; exact List.mem_cons_self h t)
    split_ifs with heof hroom
    · exact ⟨_, [h], rfl, hrel,
        Or.inr ⟨by simpa using heof.1, h, rfl, by omega, hh⟩⟩
    · exact ⟨_, [], by simp, hrel, Or.inl rfl⟩
    · exact ⟨_, [], by simp, hrel, Or.inl rfl⟩

/-- C4, witness: with credit 5 against targets allocated 3, 4 and 5 and
remote EOF, the receiver releases the filled `⟨3,3⟩` and the partial tail
`⟨2,4⟩`; the partial one satisfies `nused ≤ nallocated` by the theorem. -/
theorem rcvr_targets_read_release_invariant_witness :
    (rcvr_targets_read 5 [⟨0, 3⟩, ⟨0, 4⟩, ⟨0, 5⟩] 5 true).1 = [⟨3, 3⟩, ⟨2, 4⟩] ∧
    TBuf.nused ⟨2, 4⟩ ≤ TBuf.nallocated ⟨2, 4⟩ := by
  refine ⟨by decide, ?_⟩
  exact (rcvr_targets_read_release_invariant 5 [⟨0, 3⟩, ⟨0, 4⟩, ⟨0, 5⟩] 5 true
    (by decide)).1 ⟨2, 4⟩ (by decide)

/-! ## C5: `eof.local` is set at most once, exactly with the closing message -/

/-- The packing loop neither touches `eof.local` nor enqueues a zero-count
(closing) vector message: every message it adds advertises at least one
target. -/
theorem rcvr_vector_update_pack_props (st : RcvrVecSt) :
    (rcvr_vector_update_pack st).eofLocal = st.eofLocal ∧
    ∃ ms, (rcvr_vector_update_pack st).vecReady = st.vecReady ++ ms ∧
      ∀ m ∈ ms, 0 < m := by
  induction st using rcvr_vector_update_pack.induct with
  | case1 st h =>
    rw [rcvr_vector_update_pack, dif_pos h]
    exact ⟨rfl, [], by simp, by simp⟩
  | case2 st h ih =>
    rw [rcvr_vector_update_pack, dif_neg h]
    obtain ⟨he, ms, hv, hms⟩ := ih
    push_neg at h
    have hpos : 0 < st.readyForCxn.length := List.length_pos.mpr h.2.1
    refine ⟨he, min 12 st.readyForCxn.length :: ms, ?_, ?_⟩
    · rw [hv]
      simp
    · intro m hm
      rcases List.mem_cons.mp hm with rfl | hm'
      · omega
      · exact hms m hm'

/-- `rcvr_vector_update` never clears `eof.local`. -/
theorem rcvr_vector_update_eofLocal_mono (st : RcvrVecSt)
    (h : st.eofLocal = true) : (rcvr_vector_update st).eofLocal = true := by
  unfold rcvr_vector_update
  split_ifs with hc
  · rfl
  · rw [(rcvr_vector_update_pack_props st).1]
    exact h

/-- `xmtr_progress_update` never clears `eof.local`. -/
theorem xmtr_progress_update_eofLocal_mono (st : XmtrProgSt)
    (h : st.eofLocal = true) : (xmtr_progress_update st).eofLocal = true := by
  simp only [xmtr_progress_update]
  split_ifs with h1 h2 h3 <;> simp [h]

/-- A boolean observable that only ever rises under the step relation flips
`false → true` at at most one position of a trace. -/
theorem bool_flip_at_most_once (g : Nat → Bool) (n : Nat)
    (hmono : ∀ i, i < n → g i = true → g (i + 1) = true) :
    ∀ i j, i < n → j < n → (g i = false ∧ g (i + 1) = true) →
      (g j = false ∧ g (j + 1) = true) → i = j := by
  have hup : ∀ k d, k + d ≤ n → g k = true → g (k + d) = true := by
    intro k d
    induction d with
    | zero => exact fun _ hk => hk
    | succ m ihm =>
      intro hle hk
      exact hmono (k + m) (by omega) (ihm (by omega) hk)
  intro i j hi hj hfi hfj
  by_contra hne
  rcases Nat.lt_or_ge i j with hij | hij
  · have hj' : (i + 1) + (j - (i + 1)) = j := by omega
    have := hup (i + 1) (j - (i + 1)) (by omega) hfi.2
    rw [hj'] at this
    rw [hfj.1] at this
    exact Bool.false_ne_true this
  · have hji : j < i := by omega
    have hi' : (j + 1) + (i - (j + 1)) = i := by omega
    have := hup (j + 1) (i - (j + 1)) (by omega) hfj.2
    rw [hi'] at this
    rw [hfi.1] at this
    exact Bool.false_ne_true this

/-- C5, confirmed.  On each side of a connection: a single step of the
function that owns `eof.local` raises the flag from `false` to `true` exactly
when that step enqueues the side's closing message for transmission (a
zero-count vector for the receiver; a zero-`nleftover` progress message for
the transmitter); the flag is never cleared; and along any trace of steps —
interleaved with environment changes to every field except `eof.local` — the
flag transitions `false → true` at most once. -/
theorem eof_local_set_once :
    (∀ st : RcvrVecSt,
      (st.eofLocal = false ∧ (rcvr_vector_update st).eofLocal = true) ↔
        (rcvr_vector_update st).vecReady = st.vecReady ++ [0]) ∧
    (∀ st : XmtrProgSt,
      (st.eofLocal = false ∧ (xmtr_progress_update st).eofLocal = true) ↔
        ∃ b, (xmtr_progress_update st).progReady = st.progReady ++ [(b, 0)]) ∧
    (∀ (f : Nat → RcvrVecSt) (n : Nat),
      (∀ i, i < n → ∃ t : RcvrVecSt, t.eofLocal = (f i).eofLocal ∧
        f (i + 1) = rcvr_vector_update t) →
      ∀ i j, i < n → j < n →
        ((f i).eofLocal = false ∧ (f (i + 1)).eofLocal = true) →
        ((f j).eofLocal = false ∧ (f (j + 1)).eofLocal = true) → i = j) ∧
    (∀ (f : Nat → XmtrProgSt) (n : Nat),
      (∀ i, i < n → ∃ t : XmtrProgSt, t.eofLocal = (f i).eofLocal ∧
        f (i + 1) = xmtr_progress_update t) →
      ∀ i j, i < n → j < n →
        ((f i).eofLocal = false ∧ (f (i + 1)).eofLocal = true) →
        ((f j).eofLocal = false ∧ (f (j + 1)).eofLocal = true) → i = j) := by
  refine ⟨?_, ?_, ?_, ?_⟩
  · intro st
    unfold rcvr_vector_update
    split_ifs with hc
    · constructor
      · intro _
        rfl
      · intro _
        refine ⟨?_, rfl⟩
        have := hc.2.1
        simpa using this
    · obtain ⟨he, ms, hv, hms⟩ := rcvr_vector_update_pack_props st
      constructor
      · rintro ⟨h0, h1⟩
        rw [he, h0] at h1
        exact absurd h1 Bool.false_ne_true
      · intro hr
        rw [hv] at hr
        have hms' : ms = [0] := List.append_inj_right hr rfl
        exfalso
        have h0 : (0 : Nat) ∈ ms := by
          rw [hms']
          exact List.mem_singleton_self 0
        exact absurd (hms 0 h0) (by omega)
  · intro st
    simp only [xmtr_progress_update]
    split_ifs with h1 h2 h3 h4
    · constructor
      · rintro ⟨h0, hx⟩
        rw [h0] at hx
        exact absurd hx Bool.false_ne_true
      · rintro ⟨b, hb⟩
        exact absurd hb (by simp)
    · constructor
      · rintro ⟨h0, hx⟩
        rw [h0] at hx
        exact absurd hx Bool.false_ne_true
      · rintro ⟨b, hb⟩
        exact absurd hb (by simp)
    · constructor
      · rintro ⟨h0, hx⟩
        rw [h0] at hx
        exact absurd hx Bool.false_ne_true
      · rintro ⟨b, hb⟩
        exact absurd hb (by simp)
    · -- `reached_eof = true`: the enqueued message is the closing `(b, 0)`,
      -- and the branch condition itself forces `eof.local = false` before.
      have h0 : st.eofLocal = false := by
        revert h4
        unfold xmtr_reached_eof
        cases st.eofLocal <;> simp
      constructor
      · intro _
        exact ⟨st.bytesProgress, rfl⟩
      · intro _
        exact ⟨h0, by rw [h4, Bool.or_true]⟩
    · -- `reached_eof = false`: the message carries `nleftover = 1` and the
      -- flag cannot rise.
      have hre : xmtr_reached_eof st = false := by
        revert h4
        cases xmtr_reached_eof st <;> simp
      constructor
      · rintro ⟨h0, hx⟩
        rw [h0, hre, Bool.false_or] at hx
        exact absurd hx Bool.false_ne_true
      · rintro ⟨b, hb⟩
        have hx := List.append_inj_right hb rfl
        simp at hx
  · intro f n hstep
    refine bool_flip_at_most_once (fun i => (f i).eofLocal) n ?_
    intro i hi hg
    obtain ⟨t, ht, hf⟩ := hstep i hi
    show (f (i + 1)).eofLocal = true
    rw [hf]
    exact rcvr_vector_update_eofLocal_mono t (ht.trans hg)
  · intro f n hstep
    refine bool_flip_at_most_once (fun i => (f i).eofLocal) n ?_
    intro i hi hg
    obtain ⟨t, ht, hf⟩ := hstep i hi
    show (f (i + 1)).eofLocal = true
    rw [hf]
    exact xmtr_progress_update_eofLocal_mono t (ht.trans hg)

/-- C5, witness: a receiver state with remote EOF observed and room to send
flips `eof.local` by enqueueing the empty vector, and a one-step trace built
from that state admits only one flip position. -/
theorem eof_local_set_once_witness :
    ((⟨true, false, [], 4, 1, [], []⟩ : RcvrVecSt).eofLocal = false ∧
      (rcvr_vector_update ⟨true, false, [], 4, 1, [], []⟩).eofLocal = true) ∧
    (0 : Nat) = 0 := by
  constructor
  · exact (eof_local_set_once.1 ⟨true, false, [], 4, 1, [], []⟩).mpr (by decide)
  · refine eof_local_set_once.2.2.1
      (fun i => if i = 0 then ⟨true, false, [], 4, 1, [], []⟩
        else rcvr_vector_update ⟨true, false, [], 4, 1, [], []⟩) 1
      ?_ 0 0 (by omega) (by omega) ⟨by decide, by decide⟩ ⟨by decide, by decide⟩
    intro i hi
    have h0 : i = 0 := by omega
    subst h0
    exact ⟨⟨true, false, [], 4, 1, [], []⟩, rfl, rfl⟩

/-! ## C10: progress messages carry `nleftover ∈ \x7b0, 1\x7d` -/

/-- C10, confirmed.  Every progress message `xmtr_progress_update` newly
enqueues (the entries appended past the previous `progress.ready` contents)
has `nleftover` equal to 0 or 1 — never the number of bytes remaining at the
source — and `nleftover = 0` exactly when the step declares local EOF:
terminal drained, `ready_for_cxn` and `wrposted` empty, and local EOF not
previously sent. -/
theorem xmtr_progress_update_nleftover (st : XmtrProgSt) :
    ∀ m ∈ (xmtr_progress_update st).progReady.drop st.progReady.length,
      (m.2 = 0 ∨ m.2 = 1) ∧
      (m.2 = 0 ↔ (st.terminalEof = true ∧ st.readyForCxnEmpty = true ∧
        st.wrpostedEmpty = true ∧ st.eofLocal = false)) := by
  intro m hm
  simp only [xmtr_progress_update] at hm
  split_ifs at hm with h1 h2 h3 h4
  · rw [List.drop_length] at hm
    exact absurd hm (List.not_mem_nil m)
  · rw [List.drop_length] at hm
    exact absurd hm (List.not_mem_nil m)
  · rw [List.drop_length] at hm
    exact absurd hm (List.not_mem_nil m)
  · simp only [List.drop_left, List.mem_singleton] at hm
    subst hm
    have h4' := h4
    unfold xmtr_reached_eof at h4'
    simp only [Bool.and_eq_true, Bool.not_eq_true'] at h4'
    exact ⟨Or.inl rfl,
      iff_of_true rfl ⟨h4'.1.1.1, h4'.1.1.2, h4'.1.2, h4'.2⟩⟩
  · simp only [List.drop_left, List.mem_singleton] at hm
    subst hm
    refine ⟨Or.inr rfl, iff_of_false (by omega) ?_⟩
    rintro ⟨ha, hb, hc, hd⟩
    apply h4
    unfold xmtr_reached_eof
    rw [ha, hb, hc, hd]
    rfl

/-- C10, witness: with progress to report but the terminal not yet drained,
the enqueued message is `(42, 1)`. -/
theorem xmtr_progress_update_nleftover_witness :
    (((42, 1) : Nat × Nat).2 = 0 ∨ ((42, 1) : Nat × Nat).2 = 1) ∧
    (((42, 1) : Nat × Nat).2 = 0 ↔ (true = true ∧ false = true ∧
      true = true ∧ false = false)) := by
  have h := xmtr_progress_update_nleftover
    ⟨true, false, true, false, 42, [], 4, 2⟩ (42, 1) (by decide)
  exact h

/-! ## C6: keys of one source strictly increase; sources never collide -/

theorem roundUp256_ge (n : Nat) : n ≤ roundUp256 n := by
  unfold roundUp256
  split <;> omega

theorem roundUp256_lt_of_mod (n : Nat) (h : n % 256 ≠ 0) : n < roundUp256 n := by
  unfold roundUp256
  rw [if_neg h]
  omega

theorem roundUp256_succ_of_mod (n : Nat) (h : n % 256 ≠ 0) :
    roundUp256 (n + 1) = roundUp256 n := by
  unfold roundUp256
  split_ifs <;> omega

theorem roundUp256_pool_succ (p : Nat) (h : p % 256 = 0) :
    roundUp256 (p + 1) = p + 256 := by
  unfold roundUp256
  split_ifs <;> omega

theorem roundUp256_of_mod_eq (n : Nat) (h : n % 256 = 0) : roundUp256 n = n := by
  unfold roundUp256
  rw [if_pos h]

/-- One `keysource_next` step preserves the allocator invariant. -/
theorem ks_inv_preserved (st : KSGlobal) (a : Nat) (h : ks_inv st) :
    ks_inv (keysource_next st a).2 := by
  obtain ⟨hp, hub, hdisj⟩ := h
  by_cases hm : st.nextKey a % 256 = 0
  · -- fetch-and-add branch
    have hgoal : ks_inv { pool := st.pool + 256, nextKey := fun j => if j = a then st.pool + 1 else st.nextKey j } := by
      unfold ks_inv
      refine ⟨?_, ?_, ?_⟩
      · show (st.pool + 256) % 256 = 0
        omega
      · intro i
        show roundUp256 (if i = a then st.pool + 1 else st.nextKey i) ≤ st.pool + 256
        by_cases hia : i = a
        · rw [if_pos hia, roundUp256_pool_succ st.pool hp]
        · rw [if_neg hia]
          have := hub i
          omega
      · intro i j k hij hi hj
        have hi' : (if i = a then st.pool + 1 else st.nextKey i) ≤ k ∧
            k < roundUp256 (if i = a then st.pool + 1 else st.nextKey i) := hi
        have hj' : (if j = a then st.pool + 1 else st.nextKey j) ≤ k ∧
            k < roundUp256 (if j = a then st.pool + 1 else st.nextKey j) := hj
        clear hi hj
        by_cases hia : i = a
        · rw [if_pos hia, roundUp256_pool_succ st.pool hp] at hi'
          have hja : ¬ j = a := fun hc => hij (hia.trans hc.symm)
          rw [if_neg hja] at hj'
          have := hub j
          omega
        · rw [if_neg hia] at hi'
          by_cases hja : j = a
          · rw [if_pos hja, roundUp256_pool_succ st.pool hp] at hj'
            have := hub i
            omega
          · rw [if_neg hja] at hj'
            exact hdisj i j k hij hi' hj'
    unfold keysource_next
    rw [if_pos hm]
    exact hgoal
  · -- owner-private increment branch
    have hsh : roundUp256 (st.nextKey a + 1) = roundUp256 (st.nextKey a) :=
      roundUp256_succ_of_mod _ hm
    have hgoal : ks_inv { pool := st.pool, nextKey := fun j => if j = a then st.nextKey a + 1 else st.nextKey j } := by
      unfold ks_inv
      refine ⟨hp, ?_, ?_⟩
      · intro i
        show roundUp256 (if i = a then st.nextKey a + 1 else st.nextKey i) ≤ st.pool
        by_cases hia : i = a
        · rw [if_pos hia, hsh]
          exact hub a
        · rw [if_neg hia]
          exact hub i
      · intro i j k hij hi hj
        have hi' : (if i = a then st.nextKey a + 1 else st.nextKey i) ≤ k ∧
            k < roundUp256 (if i = a then st.nextKey a + 1 else st.nextKey i) := hi
        have hj' : (if j = a then st.nextKey a + 1 else st.nextKey j) ≤ k ∧
            k < roundUp256 (if j = a then st.nextKey a + 1 else st.nextKey j) := hj
        clear hi hj
        by_cases hia : i = a
        · rw [if_pos hia, hsh] at hi'
          have hja : ¬ j = a := fun hc => hij (hia.trans hc.symm)
          rw [if_neg hja] at hj'
          exact hdisj a j k (fun hc => hij (hia.trans hc)) ⟨by omega, hi'.2⟩ hj'
        · rw [if_neg hia] at hi'
          by_cases hja : j = a
          · rw [if_pos hja, hsh] at hj'
            exact hdisj i a k (fun hc => hij (hc.trans hja.symm)) hi' ⟨by omega, hj'.2⟩
          · rw [if_neg hja] at hj'
            exact hdisj i j k hij hi' hj'
    unfold keysource_next
    rw [if_neg hm]
    exact hgoal

theorem keysOf_cons (i a k : Nat) (out : List (Nat × Nat)) :
    keysOf i ((a, k) :: out) =
      if a = i then k :: keysOf i out else keysOf i out := by
  by_cases h : a = i <;> simp [keysOf, List.filter_cons, h]

/-- The future-keys lemma: from any state satisfying the invariant, the keys
a trace hands to source `i` are bounded below by the source's counter, lie in
the source's reserved block or at/above the pool, strictly increase, and
never coincide between distinct sources. -/
theorem keysource_run_future (t : List Nat) :
    ∀ st : KSGlobal, ks_inv st →
      (∀ i k, k ∈ keysOf i (keysource_run st t) → st.nextKey i ≤ k) ∧
      (∀ i k, k ∈ keysOf i (keysource_run st t) →
        k < roundUp256 (st.nextKey i) ∨ st.pool ≤ k) ∧
      (∀ i, List.Chain' (· < ·) (keysOf i (keysource_run st t))) ∧
      (∀ i j k, i ≠ j → k ∈ keysOf i (keysource_run st t) →
        k ∉ keysOf j (keysource_run st t)) := by
  induction t with
  | nil =>
    intro st _
    refine ⟨?_, ?_, ?_, ?_⟩ <;> simp [keysource_run, keysOf]
  | cons a t' ih =>
    intro st hinv
    obtain ⟨hp, hub, hdisj⟩ := hinv
    obtain ⟨ihA, ihB, ihC, ihD⟩ :=
      ih (keysource_next st a).2 (ks_inv_preserved st a ⟨hp, hub, hdisj⟩)
    have hrun : keysource_run st (a :: t') =
        (a, (keysource_next st a).1) ::
          keysource_run (keysource_next st a).2 t' := rfl
    -- facts about the step, by branch
    have hkey_lb : st.nextKey a ≤ (keysource_next st a).1 := by
      unfold keysource_next
      split_ifs with hm
      · have := hub a
        have := roundUp256_ge (st.nextKey a)
        omega
      · exact le_refl _
    have hself : (keysource_next st a).2.nextKey a = (keysource_next st a).1 + 1 := by
      unfold keysource_next
      split_ifs with hm <;> simp
    have hoth : ∀ j, j ≠ a → (keysource_next st a).2.nextKey j = st.nextKey j := by
      intro j hj
      unfold keysource_next
      split_ifs with hm <;> simp [hj]
    have hpool_mono : st.pool ≤ (keysource_next st a).2.pool := by
      unfold keysource_next
      split_ifs with hm <;> simp
    have hbranch : ((keysource_next st a).1 = st.pool ∧
          (keysource_next st a).2.pool = st.pool + 256) ∨
        ((keysource_next st a).1 = st.nextKey a ∧ st.nextKey a % 256 ≠ 0 ∧
          (keysource_next st a).2.pool = st.pool) := by
      unfold keysource_next
      split_ifs with hm
      · exact Or.inl ⟨rfl, rfl⟩
      · exact Or.inr ⟨rfl, hm, rfl⟩
    -- a key handed to `j ≠ a` later in the trace cannot be this step's key
    have hkey_fresh : ∀ j, j ≠ a →
        (keysource_next st a).1 ∉
          keysOf j (keysource_run (keysource_next st a).2 t') := by
      intro j hja hmem
      have hlb := ihA j _ hmem
      rw [hoth j hja] at hlb
      have hb := ihB j _ hmem
      rw [hoth j hja] at hb
      rcases hbranch with ⟨hkp, hpp⟩ | ⟨hkn, hm, hpp⟩
      · rw [hkp] at hlb hb
        rw [hpp] at hb
        have := hub j
        omega
      · rw [hkn] at hlb hb
        rw [hpp] at hb
        rcases hb with hb | hb
        · exact hdisj a j _ (fun hc => hja hc.symm)
            ⟨le_refl _, roundUp256_lt_of_mod _ hm⟩ ⟨hlb, hb⟩
        · have := hub a
          have := roundUp256_lt_of_mod _ hm
          omega
    refine ⟨?_, ?_, ?_, ?_⟩
    · intro i k hk
      rw [hrun, keysOf_cons] at hk
      by_cases hai : a = i
      · subst hai
        rw [if_pos rfl] at hk
        rcases List.mem_cons.mp hk with rfl | hk'
        · exact hkey_lb
        · have := ihA a _ hk'
          rw [hself] at this
          omega
      · rw [if_neg hai] at hk
        have := ihA i _ hk
        rwa [hoth i fun hc => hai hc.symm] at this
    · intro i k hk
      rw [hrun, keysOf_cons] at hk
      by_cases hai : a = i
      · subst hai
        rw [if_pos rfl] at hk
        rcases List.mem_cons.mp hk with rfl | hk'
        · rcases hbranch with ⟨hkp, _⟩ | ⟨hkn, hm, _⟩
          · rw [hkp]
            exact Or.inr (le_refl _)
          · rw [hkn]
            exact Or.inl (roundUp256_lt_of_mod _ hm)
        · have hlb := ihA a _ hk'
          rw [hself] at hlb
          rcases hbranch with ⟨hkp, _⟩ | ⟨hkn, hm, hpp⟩
          · rw [hkp] at hlb
            exact Or.inr (by omega)
          · have hb := ihB a _ hk'
            rw [hself, hkn] at hb
            rw [roundUp256_succ_of_mod _ hm] at hb
            rw [hpp] at hb
            exact hb
      · rw [if_neg hai] at hk
        have hb := ihB i _ hk
        rw [hoth i fun hc => hai hc.symm] at hb
        rcases hb with hb | hb
        · exact Or.inl hb
        · exact Or.inr (le_trans hpool_mono hb)
    · intro i
      rw [hrun, keysOf_cons]
      by_cases hai : a = i
      · subst hai
        rw [if_pos rfl]
        rw [List.chain'_cons']
        refine ⟨?_, ihC a⟩
        intro b hb
        have hmem := List.mem_of_mem_head? hb
        have := ihA a _ hmem
        rw [hself] at this
        omega
      · rw [if_neg hai]
        exact ihC i
    · intro i j k hij hki hkj
      rw [hrun, keysOf_cons] at hki hkj
      by_cases hai : a = i
      · subst hai
        rw [if_pos rfl] at hki
        rw [if_neg hij] at hkj
        rcases List.mem_cons.mp hki with rfl | hki'
        · exact hkey_fresh j (fun hc => hij hc.symm) hkj
        · exact ihD a j k hij hki' hkj
      · rw [if_neg hai] at hki
        by_cases haj : a = j
        · subst haj
          rw [if_pos rfl] at hkj
          rcases List.mem_cons.mp hkj with heq | hkj'
          · rw [heq] at hki
            exact hkey_fresh i (fun hc => hai hc.symm) hki
          · exact ihD i a k hij hki hkj'
        · rw [if_neg haj] at hkj
          exact ihD i j k hij hki hkj

/-- C6, confirmed.  Starting from the process's initial state (pool at 512,
all counters zero), along any interleaved trace of `keysource_next` calls the
keys returned to one source strictly increase, and two distinct sources never
receive a common key. -/
theorem keysource_increasing_and_disjoint (t : List Nat) (i j : Nat)
    (hij : i ≠ j) :
    List.Chain' (· < ·) (keysOf i (keysource_run ks_init t)) ∧
    ∀ k, k ∈ keysOf i (keysource_run ks_init t) →
      k ∉ keysOf j (keysource_run ks_init t) := by
  have hinv : ks_inv ks_init := by
    refine ⟨by decide, ?_, ?_⟩
    · intro _
      show roundUp256 0 ≤ 512
      rw [roundUp256_of_mod_eq 0 (by decide)]
      omega
    · intro a b k hab ha hb
      simp only [ks_region, ks_init, roundUp256_of_mod_eq 0 (by decide)] at ha
      omega
  obtain ⟨_, _, hC, hD⟩ := keysource_run_future t ks_init hinv
  exact ⟨hC i, fun k => hD i j k hij⟩

/-- C6, witness: on the trace `[0, 1, 0, 1, 0]` source 0 draws `512, 513,
514` (strictly increasing) and source 1 draws `768, 769`; the key 512 of
source 0 does not appear among source 1's keys. -/
theorem keysource_increasing_and_disjoint_witness :
    List.Chain' (· < ·) (keysOf 0 (keysource_run ks_init [0, 1, 0, 1, 0])) ∧
    (512 ∉ keysOf 1 (keysource_run ks_init [0, 1, 0, 1, 0])) := by
  have h := keysource_increasing_and_disjoint [0, 1, 0, 1, 0] 0 1 (by decide)
  exact ⟨h.1, h.2 512 (by decide)⟩

/-! ## C7: `txctl_transmit` moves ready-FIFO heads to the posted FIFO -/

/-- C7, confirmed.  `txctl_transmit` behaves as the spec says: for some
`k`, the first `k` ready buffers — for each of which the fabric answered the
single-IOV send to the peer with success while the posted FIFO had room —
move from the ready FIFO to the tail of the posted FIFO in order, and the
run ends in one of three ways: a natural stop (ready drained or posted
full), a try-again from the fabric that leaves the FIFOs otherwise
untouched, or a fatal error that terminates the process (`none`).  Every
submission made is a single-IOV send addressed to the peer. -/
theorem txctl_transmit_spec (peer : Nat) (oracle : Nat → SendRes)
    (attempt : Nat) (ready posted : List Nat) (cap : Nat) :
    ∃ k, k ≤ ready.length ∧
      (∀ m, m < k → oracle (attempt + m) = .ok ∧ posted.length + m ≠ cap) ∧
      (((txctl_transmit peer oracle attempt ⟨ready, posted, cap⟩).1 =
          some ⟨ready.drop k, posted ++ ready.take k, cap⟩ ∧
        (txctl_transmit peer oracle attempt ⟨ready, posted, cap⟩).2 =
          (ready.take k).map
            (fun b => { bufId := b, iovCount := 1, addr := peer }) ∧
        (ready.drop k = [] ∨ posted.length + k = cap)) ∨
      ((txctl_transmit peer oracle attempt ⟨ready, posted, cap⟩).1 =
          some ⟨ready.drop k, posted ++ ready.take k, cap⟩ ∧
        (txctl_transmit peer oracle attempt ⟨ready, posted, cap⟩).2 =
          (ready.take (k + 1)).map
            (fun b => { bufId := b, iovCount := 1, addr := peer }) ∧
        oracle (attempt + k) = .again ∧ k < ready.length ∧
        posted.length + k ≠ cap) ∨
      ((txctl_transmit peer oracle attempt ⟨ready, posted, cap⟩).1 = none ∧
        (txctl_transmit peer oracle attempt ⟨ready, posted, cap⟩).2 =
          (ready.take (k + 1)).map
            (fun b => { bufId := b, iovCount := 1, addr := peer }) ∧
        oracle (attempt + k) = .err ∧ k < ready.length ∧
        posted.length + k ≠ cap)) := by
  induction ready generalizing attempt posted with
  | nil =>
    refine ⟨0, by simp, by omega, Or.inl ⟨?_, ?_, Or.inl rfl⟩⟩
    · simp [txctl_transmit]
    · simp [txctl_transmit]
  | cons h t ih =>
    by_cases hfull : posted.length = cap
    · refine ⟨0, by simp, by omega, Or.inl ⟨?_, ?_, Or.inr (by simpa using hfull)⟩⟩
      · simp [txctl_transmit, hfull]
      · simp [txctl_transmit, hfull]
    · cases horacle : oracle attempt with
      | ok =>
        have heq : txctl_transmit peer oracle attempt ⟨h :: t, posted, cap⟩ =
            ((txctl_transmit peer oracle (attempt + 1) ⟨t, posted ++ [h], cap⟩).1,
              { bufId := h, iovCount := 1, addr := peer } ::
                (txctl_transmit peer oracle (attempt + 1)
                  ⟨t, posted ++ [h], cap⟩).2) := by
          simp only [txctl_transmit]
          rw [if_neg hfull, horacle]
        obtain ⟨k, hk, hloop, hres⟩ := ih (attempt + 1) (posted ++ [h])
        have hshift : ∀ m : Nat, attempt + 1 + m = attempt + (m + 1) := by omega
        have happ : posted ++ [h] ++ t.take k = posted ++ h :: t.take k :=
          (List.append_cons posted h (t.take k)).symm
        have happ1 : posted ++ [h] ++ t.take (k + 1) = posted ++ h :: t.take (k + 1) :=
          (List.append_cons posted h (t.take (k + 1))).symm
        refine ⟨k + 1, by simpa using Nat.succ_le_succ hk, ?_, ?_⟩
        · intro m hm
          cases m with
          | zero => exact ⟨by simpa using horacle, by simpa using hfull⟩
          | succ m' =>
            have hm' := hloop m' (by omega)
            rw [hshift m'] at hm'
            refine ⟨hm'.1, ?_⟩
            have h2 := hm'.2
            simp only [List.length_append, List.length_singleton] at h2
            omega
        · rcases hres with ⟨h1, h2, h3⟩ | ⟨h1, h2, h3, h4, h5⟩ | ⟨h1, h2, h3, h4, h5⟩
          · refine Or.inl ⟨?_, ?_, ?_⟩
            · rw [heq]
              show (txctl_transmit peer oracle (attempt + 1) ⟨t, posted ++ [h], cap⟩).1 = _
              rw [h1, happ]
              rfl
            · rw [heq]
              show _ :: (txctl_transmit peer oracle (attempt + 1) ⟨t, posted ++ [h], cap⟩).2 = _
              rw [h2]
              rfl
            · rcases h3 with h3 | h3
              · exact Or.inl h3
              · refine Or.inr ?_
                simp only [List.length_append, List.length_singleton] at h3
                omega
          · refine Or.inr (Or.inl ⟨?_, ?_, ?_, by simpa using Nat.succ_lt_succ h4, ?_⟩)
            · rw [heq]
              show (txctl_transmit peer oracle (attempt + 1) ⟨t, posted ++ [h], cap⟩).1 = _
              rw [h1, happ]
              rfl
            · rw [heq]
              show _ :: (txctl_transmit peer oracle (attempt + 1) ⟨t, posted ++ [h], cap⟩).2 = _
              rw [h2]
              rfl
            · rw [← hshift]
              exact h3
            · simp only [List.length_append, List.length_singleton] at h5
              omega
          · refine Or.inr (Or.inr ⟨?_, ?_, ?_, by simpa using Nat.succ_lt_succ h4, ?_⟩)
            · rw [heq]
              show (txctl_transmit peer oracle (attempt + 1) ⟨t, posted ++ [h], cap⟩).1 = _
              exact h1
            · rw [heq]
              show _ :: (txctl_transmit peer oracle (attempt + 1) ⟨t, posted ++ [h], cap⟩).2 = _
              rw [h2]
              rfl
            · rw [← hshift]
              exact h3
            · simp only [List.length_append, List.length_singleton] at h5
              omega
      | again =>
        refine ⟨0, by simp, by omega,
          Or.inr (Or.inl ⟨?_, ?_, by simpa using horacle, by simp, by simpa using hfull⟩)⟩
        · simp [txctl_transmit, hfull, horacle]
        · simp [txctl_transmit, hfull, horacle]
      | err =>
        refine ⟨0, by simp, by omega,
          Or.inr (Or.inr ⟨?_, ?_, by simpa using horacle, by simp, by simpa using hfull⟩)⟩
        · simp [txctl_transmit, hfull, horacle]
        · simp [txctl_transmit, hfull, horacle]

/-- C7, witness: one ready buffer, posted not full, the fabric answering
try-again: the loop submits the head once (single-IOV, to the peer) and
leaves both FIFOs unchanged. -/
theorem txctl_transmit_spec_witness :
    (txctl_transmit 9 (fun _ => SendRes.again) 0
        { ready := [5], posted := [], cap := 4 }).1 =
      some { ready := [5], posted := [], cap := 4 } ∧
    (txctl_transmit 9 (fun _ => SendRes.again) 0
        { ready := [5], posted := [], cap := 4 }).2 =
      [{ bufId := 5, iovCount := 1, addr := 9 }] := by
  obtain ⟨k, hk, hloop, hres⟩ :=
    txctl_transmit_spec 9 (fun _ => SendRes.again) 0 [5] [] 4
  have hk0 : k = 0 := by
    by_contra hne
    have := (hloop 0 (by omega)).1
    simp at this
  subst hk0
  rcases hres with ⟨h1, h2, h3⟩ | ⟨h1, h2, h3, h4, h5⟩ | ⟨h1, h2, h3, h4, h5⟩
  · rcases h3 with h3 | h3 <;> simp at h3
  · exact ⟨by simpa using h1, by simpa using h2⟩
  · simp at h3

/-! ## C8: `sink_trade` verifies, moves, and classifies -/

/-- Behaviour of the consuming loop: the moved buffers are a prefix of
`ready` verified byte-for-byte at their cumulative offsets, the offset
advances by exactly the moved bytes, and the loop flags failure exactly when
room remained and the next buffer flunks the acceptance test. -/
theorem sink_trade_loop_spec (pattern : List Nat) (tlen ent : Nat) :
    ∀ (ready : List SinkBuf) (idx room : Nat),
      ready = (sink_trade_loop pattern tlen ent idx ready room).2.2.1 ++
        (sink_trade_loop pattern tlen ent idx ready room).2.1 ∧
      (sink_trade_loop pattern tlen ent idx ready room).1 =
        idx + sink_bytes (sink_trade_loop pattern tlen ent idx ready room).2.2.1 ∧
      sink_verified pattern tlen ent idx
        (sink_trade_loop pattern tlen ent idx ready room).2.2.1 = true ∧
      ((sink_trade_loop pattern tlen ent idx ready room).2.2.2 = true ↔
        ∃ b rest, (sink_trade_loop pattern tlen ent idx ready room).2.1 = b :: rest ∧
          (sink_trade_loop pattern tlen ent idx ready room).2.2.1.length < room ∧
          sink_buf_ok pattern tlen ent
            (sink_trade_loop pattern tlen ent idx ready room).1 b = false) := by
  intro ready
  induction ready with
  | nil =>
    intro idx room
    refine ⟨by simp [sink_trade_loop], by simp [sink_trade_loop, sink_bytes], ?_, ?_⟩
    · simp [sink_trade_loop, sink_verified]
    · simp [sink_trade_loop]
  | cons b t ih =>
    intro idx room
    simp only [sink_trade_loop]
    by_cases h0 : room = 0
    · rw [if_pos h0]
      refine ⟨by simp, by simp [sink_bytes], by simp [sink_verified], ?_⟩
      constructor
      · intro hc
        exact absurd hc (by simp)
      · rintro ⟨b', r', _, hlen, _⟩
        simp at hlen
        omega
    · rw [if_neg h0]
      by_cases h1 : ent < b.length + idx
      · rw [if_pos h1]
        refine ⟨by simp, by simp [sink_bytes], by simp [sink_verified], ?_⟩
        constructor
        · intro _
          refine ⟨b, t, rfl, by simp; omega, ?_⟩
          simp only [sink_buf_ok, Bool.and_eq_false_iff]
          left
          simp only [decide_eq_false_iff_not]
          omega
        · intro _
          rfl
      · rw [if_neg h1]
        by_cases h2 : sink_buf_matches pattern tlen idx b = true
        · rw [if_neg (by simpa using h2)]
          obtain ⟨ih1, ih2, ih3, ih4⟩ := ih (idx + b.length) (room - 1)
          have hok : sink_buf_ok pattern tlen ent idx b = true := by
            simp only [sink_buf_ok, Bool.and_eq_true, decide_eq_true_eq]
            exact ⟨by omega, h2⟩
          refine ⟨?_, ?_, ?_, ?_⟩
          · show b :: t = (b :: _) ++ _
            rw [List.cons_append, ← ih1]
          · show _ = idx + sink_bytes (b :: _)
            rw [ih2]
            simp only [sink_bytes, List.map_cons, List.sum_cons]
            omega
          · show sink_verified pattern tlen ent idx (b :: _) = true
            simp only [sink_verified, Bool.and_eq_true]
            exact ⟨hok, ih3⟩
          · rw [ih4]
            constructor
            · rintro ⟨b', r', he, hlen, hko⟩
              exact ⟨b', r', he, by simp; omega, hko⟩
            · rintro ⟨b', r', he, hlen, hko⟩
              refine ⟨b', r', he, ?_, hko⟩
              simp at hlen
              omega
        · rw [if_pos (by simpa using h2)]
          refine ⟨by simp, by simp [sink_bytes], by simp [sink_verified], ?_⟩
          constructor
          · intro _
            refine ⟨b, t, rfl, by simp; omega, ?_⟩
            simp only [sink_buf_ok, Bool.and_eq_false_iff]
            right
            exact Bool.eq_false_iff.mpr h2
          · intro _
            rfl

/-- C8, confirmed.  `sink_trade` consumes a prefix of `ready`, each buffer
verified byte-for-byte against the repeating test pattern at the sink's
running offset (and counted against `entirelen`), moving it to `completed`;
it returns `loop_error` iff the terminal was already at EOF with data still
queued or the next buffer mismatches/overruns while room remained;
`loop_end` iff no error and the bytes seen reach exactly `entirelen`; and
`loop_continue` otherwise. -/
theorem sink_trade_spec (pattern : List Nat) (st : SinkSt)
    (ready : List SinkBuf) (room : Nat) :
    ready = (sink_trade pattern st ready room).2.2.2 ++
      (sink_trade pattern st ready room).2.2.1 ∧
    sink_verified pattern st.txbuflen st.entirelen st.idx
      (sink_trade pattern st ready room).2.2.2 = true ∧
    (sink_trade pattern st ready room).2.1.idx =
      st.idx + sink_bytes (sink_trade pattern st ready room).2.2.2 ∧
    ((sink_trade pattern st ready room).1 = .loop_end ↔
      ((sink_trade pattern st ready room).1 ≠ .loop_error ∧
        (sink_trade pattern st ready room).2.1.idx = st.entirelen)) ∧
    ((sink_trade pattern st ready room).1 = .loop_error ↔
      ((st.eof = true ∧ ready ≠ []) ∨
        ∃ b rest, (sink_trade pattern st ready room).2.2.1 = b :: rest ∧
          (sink_trade pattern st ready room).2.2.2.length < room ∧
          sink_buf_ok pattern st.txbuflen st.entirelen
            (sink_trade pattern st ready room).2.1.idx b = false)) ∧
    ((sink_trade pattern st ready room).1 = .loop_continue ↔
      ((sink_trade pattern st ready room).1 ≠ .loop_error ∧
        (sink_trade pattern st ready room).2.1.idx ≠ st.entirelen)) := by
  obtain ⟨l1, l2, l3, l4⟩ :=
    sink_trade_loop_spec pattern st.txbuflen st.entirelen ready st.idx room
  simp only [sink_trade]
  split_ifs with hentry hfail hidx
  · refine ⟨by simp, by simp [sink_verified], by simp [sink_bytes], ?_, ?_, ?_⟩
    · exact iff_of_false (by simp) (by rintro ⟨hc, _⟩; exact hc rfl)
    · exact iff_of_true rfl (Or.inl ⟨hentry.1, hentry.2⟩)
    · exact iff_of_false (by simp) (by rintro ⟨hc, _⟩; exact hc rfl)
  · refine ⟨l1, l3, l2, ?_, ?_, ?_⟩
    · exact iff_of_false (by simp) (by rintro ⟨hc, _⟩; exact hc rfl)
    · exact iff_of_true rfl (Or.inr (l4.mp hfail))
    · exact iff_of_false (by simp) (by rintro ⟨hc, _⟩; exact hc rfl)
  · refine ⟨l1, l3, l2, ?_, ?_, ?_⟩
    · refine iff_of_false (by simp) ?_
      rintro ⟨_, hc⟩
      exact hidx hc
    · refine iff_of_false (by simp) ?_
      rintro (hc | hex)
      · exact hentry hc
      · have := l4.mpr hex
        rw [this] at hfail
        exact hfail rfl
    · exact iff_of_true rfl ⟨by simp, hidx⟩
  · refine ⟨l1, l3, l2, ?_, ?_, ?_⟩
    · refine iff_of_true rfl ⟨by simp, ?_⟩
      simpa using hidx
    · refine iff_of_false (by simp) ?_
      rintro (hc | hex)
      · exact hentry hc
      · have := l4.mpr hex
        rw [this] at hfail
        exact hfail rfl
    · refine iff_of_false (by simp) ?_
      rintro ⟨_, hc⟩
      exact hc (by simpa using hidx)

/-- C8, witness: two pattern-conforming buffers totalling 5 of 7 bytes move
to completed and the call reports `loop_continue`. -/
theorem sink_trade_spec_witness :
    (sink_trade [10, 20, 30] ⟨0, 3, 7, false⟩ [[10, 20, 30], [10, 20]] 5).1 =
      LoopControl.loop_continue ∧
    sink_verified [10, 20, 30] 3 7 0
      (sink_trade [10, 20, 30] ⟨0, 3, 7, false⟩ [[10, 20, 30], [10, 20]] 5).2.2.2 =
      true := by
  obtain ⟨_, hb, _, _, _, hf⟩ :=
    sink_trade_spec [10, 20, 30] ⟨0, 3, 7, false⟩ [[10, 20, 30], [10, 20]] 5
  exact ⟨hf.mpr ⟨by decide, by decide⟩, hb⟩

/-! ## C9: cancellation leaves the FIFO intact, every buffer marked -/

/-- The rotation loop of `fifo_cancel`: with the original head's identity as
the stop sentinel and no later buffer sharing it, one full rotation cancels
every pending buffer and restores the original order behind the already
processed suffix. -/
theorem fifo_cancel_go_rotation (pending : List CBuf) :
    ∀ (a : CBuf) (rest : List CBuf) (f : Nat),
      a.id = f → (∀ b ∈ pending, b.id ≠ f) →
      fifo_cancel_go (pending.length + 1) (some f) (pending ++ a :: rest) =
        (a :: rest) ++ pending.map cbuf_cancel := by
  induction pending with
  | nil =>
    intro a rest f ha _
    simp only [List.nil_append, fifo_cancel_go, List.length_nil]
    rw [if_pos (by rw [ha])]
    simp
  | cons p ps ih =>
    intro a rest f ha hne
    have hp : p.id ≠ f := hne p (List.mem_cons_self p ps)
    simp only [List.cons_append, fifo_cancel_go, List.length_cons]
    rw [if_neg (by simpa using fun hc => hp hc.symm)]
    have hrec := ih a (rest ++ [cbuf_cancel p]) f ha
      (fun b hb => hne b (List.mem_cons_of_mem p hb))
    simp only [Option.getD_some]
    show fifo_cancel_go (ps.length + 1) (some f)
      ((ps ++ a :: rest) ++ [cbuf_cancel p]) = _
    rw [show (ps ++ a :: rest) ++ [cbuf_cancel p] =
      ps ++ a :: (rest ++ [cbuf_cancel p]) by simp]
    rw [hrec]
    simp

/-- C9, confirmed.  For a FIFO of distinct buffers, `fifo_cancel` leaves the
FIFO holding exactly the same buffers in the same order — each with its
`xfc.cancelled` flag set — and removes none: the result is the element-wise
cancellation of the input, so identities, order, and length are preserved
and every element is marked cancelled. -/
theorem fifo_cancel_spec (l : List CBuf) (hnd : (l.map CBuf.id).Nodup) :
    fifo_cancel l = l.map cbuf_cancel ∧
    (fifo_cancel l).map CBuf.id = l.map CBuf.id ∧
    (fifo_cancel l).length = l.length ∧
    ∀ b ∈ fifo_cancel l, b.cancelled = true := by
  have hmain : fifo_cancel l = l.map cbuf_cancel := by
    cases l with
    | nil => rfl
    | cons h t =>
      have hht : h.id ∉ t.map CBuf.id := by
        simp only [List.map_cons, List.nodup_cons] at hnd
        exact hnd.1
      show fifo_cancel_go (t.length + 1 + 1) none (h :: t) = _
      simp only [fifo_cancel_go]
      rw [if_neg (by simp)]
      simp only [Option.getD_none]
      have := fifo_cancel_go_rotation t (cbuf_cancel h) [] h.id rfl
        (fun b hb hc => hht (hc ▸ List.mem_map_of_mem CBuf.id hb))
      simp only [List.append_nil] at this ⊢
      rw [this]
      simp
  refine ⟨hmain, ?_, ?_, ?_⟩
  · rw [hmain]
    simp [List.map_map, Function.comp_def, cbuf_cancel]
  · rw [hmain, List.length_map]
  · intro b hb
    rw [hmain] at hb
    obtain ⟨x, _, rfl⟩ := List.mem_map.mp hb
    rfl

/-- C9, witness: cancelling a three-buffer FIFO marks all three and keeps
them in place. -/
theorem fifo_cancel_spec_witness :
    fifo_cancel [⟨1, false⟩, ⟨2, false⟩, ⟨3, false⟩] =
      List.map cbuf_cancel [⟨1, false⟩, ⟨2, false⟩, ⟨3, false⟩] ∧
    (fifo_cancel [⟨1, false⟩, ⟨2, false⟩, ⟨3, false⟩]).length = 3 := by
  obtain ⟨h1, _, h3, _⟩ :=
    fifo_cancel_spec [⟨1, false⟩, ⟨2, false⟩, ⟨3, false⟩] (by decide)
  exact ⟨h1, h3⟩

end Fget
